import Mathlib

/-!
Verification of the CNF encoding layer of the solvers repository
(src/sat_utils.py) against its natural-language specification.

Facts (symbolic literals) are Python strings; we embed them as lists of
characters.  A leading tilde marks negation, exactly as in the source.
Machine-level details that the claims depend on are embedded faithfully:
a Python exception is modelled as an Option-valued result (none), and the
process-wide extension-variable counter is threaded explicitly as a start
index.
-/

namespace SatUtils

/-- A fact is a Python string, embedded as its list of characters. -/
abbrev Fact := List Char

/-- Embedding of sat_utils.neg: strip a leading tilde, otherwise prepend one.
Mirrors: element[1:] if element.startswith('~') else '~' + element. -/
def neg : Fact → Fact
  | [] => ['~']
  | c :: rest => if c = '~' then rest else '~' :: c :: rest

/-- Embedding of sat_utils.is_ext_var: the fact ends with the reserved
suffix three underscores (element.endswith('___')). -/
def isExtVar (f : Fact) : Bool := f.reverse.take 3 = ['_', '_', '_']

/-- Truth value of a literal under an assignment of the atomic names.
A leading tilde flips the value; the assignment is consulted on the
tilde-free remainder.  This is the standard reading of the source's
literal convention (translate strips one tilde per level). -/
def evalLit (v : Fact → Bool) : Fact → Bool
  | [] => v []
  | c :: rest => if c = '~' then ! evalLit v rest else v (c :: rest)

/-- A clause (tuple in the source) is a disjunction of literals. -/
def evalClause (v : Fact → Bool) (c : List Fact) : Bool := c.any (evalLit v)

/-- A CNF (list of tuples) is a conjunction of clauses. -/
def evalCnf (v : Fact → Bool) (f : List (List Fact)) : Bool := f.all (evalClause v)

/-- A DNF group (tuple in the source) is a conjunction of literals. -/
def evalGroup (v : Fact → Bool) (g : List Fact) : Bool := g.all (evalLit v)

/-- A DNF (list of groups) is a disjunction of groups. -/
def evalDnf (v : Fact → Bool) (gs : List (List Fact)) : Bool := gs.any (evalGroup v)

theorem evalLit_neg (v : Fact → Bool) (l : Fact) : evalLit v (neg l) = ! evalLit v l := by
  match l with
  | [] => simp [neg, evalLit]
  | c :: rest =>
    by_cases hc : c = '~'
    · subst hc
      simp [neg, evalLit]
    · simp [neg, evalLit, hc]

theorem neg_length_ne (l : Fact) : (neg l).length ≠ l.length := by
  match l with
  | [] => simp [neg]
  | c :: rest =>
    by_cases hc : c = '~'
    · subst hc; simp [neg]
    · simp [neg, hc]

/-- C8 (amended): negation is involutive on every fact that does not begin
with two tildes, and has no fixed point at all. -/
theorem neg_involutive_of_no_double_tilde :
    (∀ f : Fact, f.take 2 ≠ ['~', '~'] → neg (neg f) = f) ∧ (∀ f : Fact, neg f ≠ f) := by
  constructor
  · intro f hf
    match f with
    | [] => simp [neg]
    | c :: rest =>
      by_cases hc : c = '~'
      · subst hc
        match rest with
        | [] => simp [neg]
        | c' :: rest' =>
          by_cases hc' : c' = '~'
          · subst hc'; simp [List.take] at hf
          · simp [neg, hc']
      · simp [neg, hc]
  · intro f h
    exact neg_length_ne f (congrArg List.length h)

/-- C8 witness: the involution instantiated at the concrete fact A. -/
theorem neg_involutive_witness : neg (neg ['A']) = ['A'] :=
  neg_involutive_of_no_double_tilde.1 ['A'] (by decide)

/-- C8 counterexample: on the fact with two leading tildes, double negation
does not return the input (Python strips only one tilde at a time), so
negation is not an involution on all facts. -/
theorem neg_not_involutive_on_double_tilde :
    neg (neg ['~', '~', 'A']) ≠ ['~', '~', 'A'] := by decide

/-! ### Cardinality builder (class Q) -/

/-- Embedding of itertools.combinations: all r-element subsequences of the
list, in the order Python emits them (selections that keep an earlier
element come first). -/
def combinations : List α → Nat → List (List α)
  | _, 0 => [[]]
  | [], _ + 1 => []
  | a :: l, r + 1 => ((combinations l r).map (a :: ·)) ++ combinations l (r + 1)

theorem combinations_perm (l : List α) : ∀ r : Nat, List.Perm (combinations l r) (List.sublistsLen r l) := by
  induction l with
  | nil =>
    intro r
    match r with
    | 0 => simp [combinations]
    | r + 1 => simp [combinations]
  | cons a t ih =>
    intro r
    match r with
    | 0 => simp [combinations]
    | r + 1 =>
      rw [combinations, List.sublistsLen_succ_cons]
      exact (((ih r).map (a :: ·)).append (ih (r + 1))).trans List.perm_append_comm

theorem combinations_map (f : α → β) (l : List α) :
    ∀ r : Nat, combinations (l.map f) r = (combinations l r).map (List.map f) := by
  induction l with
  | nil =>
    intro r
    match r with
    | 0 => simp [combinations]
    | r + 1 => simp [combinations]
  | cons a t ih =>
    intro r
    match r with
    | 0 => simp [combinations]
    | r + 1 =>
      simp only [List.map_cons, combinations, ih r, ih (r + 1), List.map_append,
        List.map_map]
      rfl

/-- Embedding of Q.__lt__: clauses of negated literals over every n-subset.
A negative subset size makes itertools.combinations raise ValueError,
modelled as none. -/
def qLt (elements : List Fact) (n : Int) : Option (List (List Fact)) :=
  if n < 0 then none else some (combinations (elements.map neg) n.toNat)

/-- Embedding of Q.__le__: self < n + 1. -/
def qLe (elements : List Fact) (n : Int) : Option (List (List Fact)) :=
  qLt elements (n + 1)

/-- Embedding of Q.__gt__: clauses over every (len - n)-subset of the
elements; a negative subset size (n above the length) raises, hence none. -/
def qGt (elements : List Fact) (n : Int) : Option (List (List Fact)) :=
  if (elements.length : Int) - n < 0 then none
  else some (combinations elements ((elements.length : Int) - n).toNat)

/-- Embedding of Q.__ge__: self > n - 1. -/
def qGe (elements : List Fact) (n : Int) : Option (List (List Fact)) :=
  qGt elements (n - 1)

/-- Embedding of Q.__eq__: the clauses of at-most(n) followed by the clauses
of at-least(n); an exception from either side propagates. -/
def qEq (elements : List Fact) (n : Int) : Option (List (List Fact)) :=
  (qLe elements n).bind (fun a => (qGe elements n).map (fun b => a ++ b))

/-- Embedding of Q.__ne__: raise NotImplementedError, unconditionally. -/
def qNe (_elements : List Fact) (_n : Int) : Option (List (List Fact)) :=
  none

/-- C7: requesting the not-equal cardinality constraint always fails as
not-implemented and never emits any clauses. -/
theorem qNe_always_fails : ∀ (elements : List Fact) (n : Int), qNe elements n = none := by
  intro elements n
  rfl

/-- C6 (amended): the cardinality encodings agree with the subset
description whenever the requested subset size is non-negative, i.e.
0 ≤ n for fewer-than and n ≤ |L| for more-than; outside those ranges the
source raises ValueError (none) instead of returning the empty clause
list.  The le/ge/eq reductions hold unconditionally, and fewer-than(0) is
exactly one empty clause. -/
theorem q_cardinality_encodings (L : List Fact) (n : Int) :
    (0 ≤ n → qLt L n = some (combinations (L.map neg) n.toNat) ∧
      List.Perm (combinations (L.map neg) n.toNat)
        ((List.sublistsLen n.toNat L).map (List.map neg))) ∧
    (qLe L n = qLt L (n + 1)) ∧
    (n ≤ (L.length : Int) →
      qGt L n = some (combinations L ((L.length : Int) - n).toNat) ∧
      List.Perm (combinations L ((L.length : Int) - n).toNat)
        (List.sublistsLen ((L.length : Int) - n).toNat L)) ∧
    (qGe L n = qGt L (n - 1)) ∧
    (∀ a b, qLe L n = some a → qGe L n = some b → qEq L n = some (a ++ b)) ∧
    (qLt L 0 = some [[]]) := by
  refine ⟨?_, rfl, ?_, rfl, ?_, ?_⟩
  · intro hn
    refine ⟨by simp [qLt, not_lt.mpr hn], ?_⟩
    rw [combinations_map]
    exact (combinations_perm L n.toNat).map (List.map neg)
  · intro hn
    have h : ¬ ((L.length : Int) - n < 0) := by omega
    exact ⟨by simp [qGt, h], combinations_perm L _⟩
  · intro a b ha hb
    simp [qEq, ha, hb]
  · simp [qLt, combinations]

/-- C6 witness: the encodings evaluated at the concrete collection [A, B]
with target 1, discharging the range hypotheses of fewer-than, more-than
and exactly. -/
theorem q_cardinality_encodings_witness :
    (qLt [['A'], ['B']] 1 = some (combinations ([['A'], ['B']].map neg) (1 : Int).toNat) ∧
      List.Perm (combinations ([['A'], ['B']].map neg) (1 : Int).toNat)
        ((List.sublistsLen (1 : Int).toNat [['A'], ['B']]).map (List.map neg))) ∧
    (qGt [['A'], ['B']] 1 =
        some (combinations [['A'], ['B']] (([['A'], ['B']].length : Int) - 1).toNat) ∧
      List.Perm (combinations [['A'], ['B']] (([['A'], ['B']].length : Int) - 1).toNat)
        (List.sublistsLen (([['A'], ['B']].length : Int) - 1).toNat [['A'], ['B']])) ∧
    qEq [['A'], ['B']] 1 = some ([[['~', 'A'], ['~', 'B']]] ++ [[['A'], ['B']]]) :=
  ⟨(q_cardinality_encodings [['A'], ['B']] 1).1 (by decide),
   (q_cardinality_encodings [['A'], ['B']] 1).2.2.1 (by decide),
   (q_cardinality_encodings [['A'], ['B']] 1).2.2.2.2.1
     [[['~', 'A'], ['~', 'B']]] [[['A'], ['B']]] (by decide) (by decide)⟩

/-- C6 counterexample: fewer-than(-1) raises ValueError in the source
(modelled none) instead of returning the clause list over the (-1)-subsets
of L, which would be the empty list some []; so the claim fails for
negative targets. -/
theorem qLt_negative_target_raises :
    qLt [['A']] (-1) = none ∧ (none : Option (List (List Fact))) ≠ some [] := by
  constructor
  · rfl
  · intro h
    cases h

/-! ### Variable translator (make_translate / translate) -/

/-- Python dict insertion: if the key is present, update the value in place
(keeping its position); otherwise append the binding at the end.  Python
dicts preserve insertion order. -/
def dictInsert (d : List (Fact × Int)) (k : Fact) (v : Int) : List (Fact × Int) :=
  if d.any (fun p => p.1 = k) then d.map (fun p => if p.1 = k then (k, v) else p)
  else d ++ [(k, v)]

/-- One literal step of make_translate: skip literals that are already keys;
otherwise read the first character (IndexError on an empty literal, hence
none), strip one leading tilde to get the variable, and bind var to
len(dict) // 2 + 1 and tilde-var to its negative. -/
def mtStep (d : List (Fact × Int)) (l : Fact) : Option (List (Fact × Int)) :=
  if d.any (fun p => p.1 = l) then some d
  else
    match l with
    | [] => none
    | c :: rest =>
      let var := if c = '~' then rest else c :: rest
      let num : Int := ((d.length / 2 + 1 : Nat) : Int)
      some (dictInsert (dictInsert d var num) ('~' :: var) (-num))

/-- Embedding of make_translate: fold the per-literal step over the
flattened clause traversal of the CNF (for clause in cnf: for literal in
clause). -/
def make_translate (cnf : List (List Fact)) : Option (List (Fact × Int)) :=
  cnf.flatten.foldlM mtStep []

/-- Dictionary lookup: first binding wins (keys are unique in a dict). -/
def lookupLit (d : List (Fact × Int)) (l : Fact) : Option Int :=
  (d.find? (fun p => p.1 = l)).map (fun p => p.2)

/-- The reverse dictionary num2var = (num: lit for lit, num in items): for
each number the last binding with that value wins. -/
def num2var (d : List (Fact × Int)) (n : Int) : Option Fact :=
  (d.reverse.find? (fun p => p.2 = n)).map (fun p => p.1)

/-- Embedding of the numbered-CNF part of translate (uniquify left False):
every literal of every clause mapped through the dictionary. -/
def translateNums (d : List (Fact × Int)) (cnf : List (List Fact)) :
    Option (List (List Int)) :=
  cnf.mapM (fun cl => cl.mapM (lookupLit d))

/-- The contiguous paired dictionary: variables in order, each with its
positive number and the tilde form with the negative, starting at n. -/
def pairTable : List Fact → Int → List (Fact × Int)
  | [], _ => []
  | x :: xs, n => (x, n) :: ('~' :: x, -n) :: pairTable xs (n + 1)

/-- First-seen deduplication with an accumulator (Python dict key order). -/
def firstSeenAux : List Fact → List Fact → List Fact
  | acc, [] => acc
  | acc, x :: xs => if x ∈ acc then firstSeenAux acc xs else firstSeenAux (acc ++ [x]) xs

/-- First-seen deduplication of a list. -/
def firstSeen (l : List Fact) : List Fact := firstSeenAux [] l

/-- The variable underlying a literal: one leading tilde stripped. -/
def varOf : Fact → Fact
  | [] => []
  | c :: rest => if c = '~' then rest else c :: rest

/-- A literal the translator handles without fault or aliasing: non-empty
and not doubly negated. -/
def goodLit (l : Fact) : Prop := l ≠ [] ∧ l.take 2 ≠ ['~', '~']

/-- A variable name that does not itself look negated. -/
def goodVar (x : Fact) : Prop := x.head? ≠ some '~'

theorem varOf_goodVar {l : Fact} (h : goodLit l) : goodVar (varOf l) := by
  obtain ⟨hne, htake⟩ := h
  match l with
  | [] => exact absurd rfl hne
  | c :: rest =>
    by_cases hc : c = '~'
    · subst hc
      match rest with
      | [] => simp [varOf, goodVar]
      | c' :: rest' =>
        simp only [List.take] at htake
        have hc' : c' ≠ '~' := by
          intro h; apply htake; rw [h]
        simp [varOf, goodVar, hc']
    · simp [varOf, goodVar, hc]

theorem varOf_eq_self {x : Fact} (h : goodVar x) : varOf x = x := by
  match x with
  | [] => rfl
  | c :: rest =>
    have : c ≠ '~' := by
      intro hc; exact h (by simp [hc])
    simp [varOf, this]

/-- Shape of a good literal: it is either its variable or the tilde form. -/
theorem goodLit_shape {l : Fact} (h : goodLit l) :
    l = varOf l ∨ l = '~' :: varOf l := by
  match l with
  | [] => exact absurd rfl h.1
  | c :: rest =>
    by_cases hc : c = '~'
    · subst hc; right; simp [varOf]
    · left; simp [varOf, hc]

theorem pairTable_length (vs : List Fact) (n : Int) :
    (pairTable vs n).length = 2 * vs.length := by
  induction vs generalizing n with
  | nil => rfl
  | cons x xs ih => simp [pairTable, ih]; ring

theorem pairTable_append (vs : List Fact) (x : Fact) (n : Int) :
    pairTable (vs ++ [x]) n =
      pairTable vs n ++ [(x, n + vs.length), ('~' :: x, -(n + vs.length))] := by
  induction vs generalizing n with
  | nil => simp [pairTable]
  | cons y ys ih =>
    have h1 : n + 1 + (ys.length : Int) = n + ((ys.length : Int) + 1) := by ring
    show pairTable (y :: (ys ++ [x])) n = _
    rw [pairTable, ih, List.length_cons]
    push_cast
    rw [h1]
    simp [pairTable]

/-- Keys of the paired dictionary. -/
theorem pairTable_keys {vs : List Fact} {n : Int} {l : Fact} :
    (∃ p ∈ pairTable vs n, p.1 = l) ↔ ∃ x ∈ vs, l = x ∨ l = '~' :: x := by
  induction vs generalizing n with
  | nil => simp [pairTable]
  | cons y ys ih =>
    simp only [pairTable, List.mem_cons]
    constructor
    · rintro ⟨p, hp | hp | hp, hpl⟩
      · subst hp
        exact ⟨y, Or.inl rfl, Or.inl hpl.symm⟩
      · subst hp
        exact ⟨y, Or.inl rfl, Or.inr hpl.symm⟩
      · obtain ⟨x, hx, hl⟩ := (@ih (n + 1)).1 ⟨p, hp, hpl⟩
        exact ⟨x, Or.inr hx, hl⟩
    · rintro ⟨x, hx | hx, hl⟩
      · subst hx
        rcases hl with hl | hl
        · exact ⟨(x, n), Or.inl rfl, hl.symm⟩
        · exact ⟨('~' :: x, -n), Or.inr (Or.inl rfl), hl.symm⟩
      · obtain ⟨p, hp, hpl⟩ := (@ih (n + 1)).2 ⟨x, hx, hl⟩
        exact ⟨p, Or.inr (Or.inr hp), hpl⟩

theorem any_key_iff (d : List (Fact × Int)) (l : Fact) :
    (d.any (fun p => p.1 = l)) = true ↔ ∃ p ∈ d, p.1 = l := by
  simp [List.any_eq_true]

/-- A good literal is a key of the paired dictionary exactly when its
variable is listed. -/
theorem pairTable_key_iff {vs : List Fact} {n : Int} {l : Fact}
    (hgood : ∀ x ∈ vs, goodVar x) (hl : goodLit l) :
    ((pairTable vs n).any (fun p => p.1 = l)) = true ↔ varOf l ∈ vs := by
  rw [any_key_iff, pairTable_keys]
  constructor
  · rintro ⟨x, hx, hcase | hcase⟩
    · rw [hcase, varOf_eq_self (hgood x hx)]
      exact hx
    · rw [hcase]
      simpa [varOf] using hx
  · intro hv
    rcases goodLit_shape hl with hshape | hshape
    · exact ⟨varOf l, hv, Or.inl hshape⟩
    · exact ⟨varOf l, hv, Or.inr hshape⟩

theorem mtStep_skip {d : List (Fact × Int)} {l : Fact}
    (h : (d.any (fun p => p.1 = l)) = true) : mtStep d l = some d := by
  simp [mtStep, h]

theorem mtStep_new {vs : List Fact} {l : Fact}
    (hgood : ∀ x ∈ vs, goodVar x) (hl : goodLit l) (hmem : varOf l ∉ vs) :
    mtStep (pairTable vs 1) l = some (pairTable (vs ++ [varOf l]) 1) := by
  have hkey : ((pairTable vs 1).any (fun p => p.1 = l)) = false := by
    rw [← Bool.not_eq_true, pairTable_key_iff hgood hl]
    exact hmem
  have hvgood : goodVar (varOf l) := varOf_goodVar hl
  have hk1 : ((pairTable vs 1).any (fun p => p.1 = varOf l)) = false := by
    rw [← Bool.not_eq_true, any_key_iff, pairTable_keys]
    rintro ⟨x, hx, hcase | hcase⟩
    · rw [hcase] at hmem
      exact hmem hx
    · exact hvgood (by rw [hcase]; rfl)
  have hk2 : ∀ w : Int, (((pairTable vs 1) ++ [(varOf l, w)]).any
      (fun p => p.1 = '~' :: varOf l)) = false := by
    intro w
    rw [← Bool.not_eq_true]
    intro hcontra
    rw [List.any_append, Bool.or_eq_true] at hcontra
    rcases hcontra with hcontra | hcontra
    · rw [any_key_iff, pairTable_keys] at hcontra
      obtain ⟨x, hx, hcase | hcase⟩ := hcontra
      · exact hgood x hx (by rw [← hcase]; rfl)
      · simp only [List.cons.injEq, true_and] at hcase
        rw [hcase] at hmem
        exact hmem hx
    · simp only [List.any_cons, List.any_nil, Bool.or_false, decide_eq_true_eq] at hcontra
      have := congrArg List.length hcontra
      simp at this
  obtain ⟨c, rest, hcr⟩ : ∃ c rest, l = c :: rest := by
    match l with
    | [] => exact absurd rfl hl.1
    | c :: rest => exact ⟨c, rest, rfl⟩
  subst hcr
  have hnum : ((pairTable vs 1).length / 2 + 1 : Nat) = vs.length + 1 := by
    rw [pairTable_length]; omega
  have hd1 : dictInsert (pairTable vs 1) (varOf (c :: rest)) ((vs.length + 1 : Nat) : Int) =
      pairTable vs 1 ++ [(varOf (c :: rest), ((vs.length + 1 : Nat) : Int))] := by
    unfold dictInsert
    rw [if_neg (by simp [hk1])]
  have hd2 : dictInsert (pairTable vs 1 ++ [(varOf (c :: rest), ((vs.length + 1 : Nat) : Int))])
      ('~' :: varOf (c :: rest)) (-((vs.length + 1 : Nat) : Int)) =
      pairTable vs 1 ++ [(varOf (c :: rest), ((vs.length + 1 : Nat) : Int)),
        ('~' :: varOf (c :: rest), -((vs.length + 1 : Nat) : Int))] := by
    unfold dictInsert
    rw [if_neg (by simp [hk2])]
    rw [List.append_assoc]
    rfl
  have hvar : (if c = '~' then rest else c :: rest) = varOf (c :: rest) := rfl
  simp only [mtStep, hkey, Bool.false_eq_true, if_false, hvar, hnum]
  rw [hd1, hd2, pairTable_append]
  have harith : (1 : Int) + (vs.length : Int) = ((vs.length + 1 : Nat) : Int) := by
    push_cast; ring
  rw [harith]

theorem mem_firstSeenAux : ∀ (ls acc : List Fact) (x : Fact),
    x ∈ firstSeenAux acc ls ↔ x ∈ acc ∨ x ∈ ls := by
  intro ls
  induction ls with
  | nil => simp [firstSeenAux]
  | cons y ys ih =>
    intro acc x
    rw [firstSeenAux]
    by_cases hy : y ∈ acc
    · rw [if_pos hy, ih]
      constructor
      · rintro (h | h)
        · exact Or.inl h
        · exact Or.inr (List.mem_cons_of_mem y h)
      · rintro (h | h)
        · exact Or.inl h
        · rcases List.mem_cons.1 h with rfl | h
          · exact Or.inl hy
          · exact Or.inr h
    · rw [if_neg hy, ih]
      simp only [List.mem_append, List.mem_singleton, List.mem_cons]
      tauto

theorem firstSeenAux_nodup : ∀ (ls acc : List Fact), acc.Nodup → (firstSeenAux acc ls).Nodup := by
  intro ls
  induction ls with
  | nil => intro acc h; exact h
  | cons y ys ih =>
    intro acc h
    rw [firstSeenAux]
    by_cases hy : y ∈ acc
    · rw [if_pos hy]; exact ih acc h
    · rw [if_neg hy]
      exact ih (acc ++ [y]) (by simp [List.nodup_append, h, hy])

theorem firstSeenAux_all {P : Fact → Prop} : ∀ (ls acc : List Fact),
    (∀ x ∈ acc, P x) → (∀ x ∈ ls, P x) → ∀ x ∈ firstSeenAux acc ls, P x := by
  intro ls
  induction ls with
  | nil => intro acc hacc _ x hx; exact hacc x hx
  | cons y ys ih =>
    intro acc hacc hls x hx
    rw [firstSeenAux] at hx
    by_cases hy : y ∈ acc
    · rw [if_pos hy] at hx
      exact ih acc hacc (fun z hz => hls z (List.mem_cons_of_mem y hz)) x hx
    · rw [if_neg hy] at hx
      refine ih (acc ++ [y]) ?_ (fun z hz => hls z (List.mem_cons_of_mem y hz)) x hx
      intro z hz
      rcases List.mem_append.1 hz with hz | hz
      · exact hacc z hz
      · rw [List.mem_singleton.1 hz]
        exact hls y (List.mem_cons_self y ys)

/-- The central translator invariant: folding the per-literal step over good
literals builds exactly the contiguous paired dictionary over the
first-seen variable order. -/
theorem foldlM_mtStep : ∀ (ls vs : List Fact), (∀ x ∈ vs, goodVar x) →
    (∀ l ∈ ls, goodLit l) →
    ls.foldlM mtStep (pairTable vs 1) =
      some (pairTable (firstSeenAux vs (ls.map varOf)) 1) := by
  intro ls
  induction ls with
  | nil => intro vs _ _; simp [firstSeenAux]
  | cons l ls ih =>
    intro vs hgood hls
    have hl : goodLit l := hls l (List.mem_cons_self l ls)
    have hrest : ∀ x ∈ ls, goodLit x := fun x hx => hls x (List.mem_cons_of_mem l hx)
    rw [List.foldlM_cons, List.map_cons, firstSeenAux]
    by_cases hmem : varOf l ∈ vs
    · rw [mtStep_skip ((pairTable_key_iff hgood hl).2 hmem), if_pos hmem]
      simpa using ih vs hgood hrest
    · rw [mtStep_new hgood hl hmem, if_neg hmem]
      have hgood2 : ∀ x ∈ vs ++ [varOf l], goodVar x := by
        intro x hx
        rcases List.mem_append.1 hx with hx | hx
        · exact hgood x hx
        · rw [List.mem_singleton.1 hx]
          exact varOf_goodVar hl
      simpa using ih (vs ++ [varOf l]) hgood2 hrest

/-- make_translate on good literals: the dictionary is the contiguous paired
table over the first-seen variables of the flattened traversal. -/
theorem make_translate_eq (cnf : List (List Fact))
    (H : ∀ l ∈ cnf.flatten, goodLit l) :
    make_translate cnf = some (pairTable (firstSeen (cnf.flatten.map varOf)) 1) := by
  have := foldlM_mtStep cnf.flatten [] (by intro x hx; cases hx) H
  rw [make_translate, firstSeen]
  simpa [pairTable] using this

theorem neg_of_goodVar {x : Fact} (h : goodVar x) (hne : x ≠ []) : neg x = '~' :: x := by
  match x with
  | [] => exact absurd rfl hne
  | c :: rest =>
    have hc : c ≠ '~' := by
      intro hc
      exact h (by rw [hc]; rfl)
    simp [neg, hc]

theorem neg_tilde (x : Fact) : neg ('~' :: x) = x := by simp [neg]

theorem lookupLit_pairTable_pos : ∀ (vs : List Fact) (n : Int) (i : Nat) (h : i < vs.length),
    vs.Nodup → (∀ x ∈ vs, goodVar x) →
    lookupLit (pairTable vs n) (vs.get ⟨i, h⟩) = some (n + i) := by
  intro vs
  induction vs with
  | nil =>
    intro n i h
    simp at h
  | cons y ys ih =>
    intro n i h hnd hgood
    match i with
    | 0 =>
      show lookupLit (pairTable (y :: ys) n) y = some (n + ((0 : Nat) : Int))
      rw [pairTable, lookupLit, List.find?_cons_of_pos _ (by simp)]
      simp
    | i + 1 =>
      have hmemi : ys.get ⟨i, by simpa using h⟩ ∈ ys := List.get_mem ys i (by simpa using h)
      have h1 : y ≠ ys.get ⟨i, by simpa using h⟩ := by
        intro hcontra
        exact (List.nodup_cons.1 hnd).1 (hcontra ▸ hmemi)
      have h2 : ('~' : Char) :: y ≠ ys.get ⟨i, by simpa using h⟩ := by
        intro hcontra
        exact hgood _ (List.mem_cons_of_mem y hmemi) (by rw [← hcontra]; rfl)
      show lookupLit (pairTable (y :: ys) n) (ys.get ⟨i, by simpa using h⟩) = _
      rw [pairTable, lookupLit,
        List.find?_cons_of_neg _ (by intro hcontra; exact h1 (of_decide_eq_true hcontra)),
        List.find?_cons_of_neg _ (by intro hcontra; exact h2 (of_decide_eq_true hcontra))]
      have := ih (n + 1) i (by simpa using h) (List.nodup_cons.1 hnd).2
        (fun x hx => hgood x (List.mem_cons_of_mem y hx))
      rw [lookupLit] at this
      rw [this]
      congr 1
      push_cast
      ring

theorem lookupLit_pairTable_neg : ∀ (vs : List Fact) (n : Int) (i : Nat) (h : i < vs.length),
    vs.Nodup → (∀ x ∈ vs, goodVar x) →
    lookupLit (pairTable vs n) ('~' :: vs.get ⟨i, h⟩) = some (-(n + i)) := by
  intro vs
  induction vs with
  | nil =>
    intro n i h
    simp at h
  | cons y ys ih =>
    intro n i h hnd hgood
    match i with
    | 0 =>
      show lookupLit (pairTable (y :: ys) n) ('~' :: y) = some (-(n + ((0 : Nat) : Int)))
      have hy : goodVar y := hgood y (List.mem_cons_self y ys)
      have h1 : y ≠ '~' :: y := by
        intro hcontra
        exact hy (by rw [hcontra]; rfl)
      rw [pairTable, lookupLit,
        List.find?_cons_of_neg _ (by intro hcontra; exact h1 (of_decide_eq_true hcontra)),
        List.find?_cons_of_pos _ (by simp)]
      simp
    | i + 1 =>
      have hmemi : ys.get ⟨i, by simpa using h⟩ ∈ ys := List.get_mem ys i (by simpa using h)
      have h1 : y ≠ '~' :: ys.get ⟨i, by simpa using h⟩ := by
        intro hcontra
        exact hgood y (List.mem_cons_self y ys) (by rw [hcontra]; rfl)
      have h2 : ('~' : Char) :: y ≠ '~' :: ys.get ⟨i, by simpa using h⟩ := by
        intro hcontra
        have : y = ys.get ⟨i, by simpa using h⟩ := by
          simpa using hcontra
        exact (List.nodup_cons.1 hnd).1 (this ▸ hmemi)
      show lookupLit (pairTable (y :: ys) n) ('~' :: ys.get ⟨i, by simpa using h⟩) = _
      rw [pairTable, lookupLit,
        List.find?_cons_of_neg _ (by intro hcontra; exact h1 (of_decide_eq_true hcontra)),
        List.find?_cons_of_neg _ (by intro hcontra; exact h2 (of_decide_eq_true hcontra))]
      have := ih (n + 1) i (by simpa using h) (List.nodup_cons.1 hnd).2
        (fun x hx => hgood x (List.mem_cons_of_mem y hx))
      rw [lookupLit] at this
      rw [this]
      congr 1
      push_cast
      ring

theorem pairTable_values : ∀ (vs : List Fact) (m : Int) (p : Fact × Int),
    p ∈ pairTable vs m → m ≤ p.2 ∨ p.2 ≤ -m := by
  intro vs
  induction vs with
  | nil => simp [pairTable]
  | cons y ys ih =>
    intro m p hp
    rw [pairTable] at hp
    rcases List.mem_cons.1 hp with hp | hp
    · left; rw [hp]
    rcases List.mem_cons.1 hp with hp | hp
    · right; rw [hp]
    · rcases ih (m + 1) p hp with hv | hv
      · left; omega
      · right; omega

theorem find_rev_pairTable_none (vs : List Fact) (m k : Int) (h1 : -m < k) (h2 : k < m) :
    ((pairTable vs m).reverse.find? (fun p => p.2 = k)) = none := by
  rw [List.find?_eq_none]
  intro p hp
  rcases pairTable_values vs m p (List.mem_reverse.1 hp) with hv | hv
  · simp only [decide_eq_true_eq]
    omega
  · simp only [decide_eq_true_eq]
    omega

theorem pairTable_reverse_cons (y : Fact) (ys : List Fact) (n : Int) :
    (pairTable (y :: ys) n).reverse =
      (pairTable ys (n + 1)).reverse ++ [('~' :: y, -n), (y, n)] := by
  rw [pairTable]
  simp

theorem find_rev_pairTable_pos : ∀ (vs : List Fact) (n : Int) (i : Nat) (h : i < vs.length),
    0 < n → ((pairTable vs n).reverse.find? (fun p => p.2 = n + (i : Int))) =
      some (vs.get ⟨i, h⟩, n + (i : Int)) := by
  intro vs
  induction vs with
  | nil =>
    intro n i h
    simp at h
  | cons y ys ih =>
    intro n i h hn
    rw [pairTable_reverse_cons, List.find?_append]
    match i with
    | 0 =>
      simp only [Nat.cast_zero, add_zero]
      rw [find_rev_pairTable_none ys (n + 1) n (by omega) (by omega)]
      rw [List.find?_cons_of_neg _ (by simp; omega), List.find?_cons_of_pos _ (by simp)]
      rfl
    | i + 1 =>
      have hcast : n + ((i + 1 : Nat) : Int) = (n + 1) + (i : Int) := by push_cast; ring
      simp only [hcast]
      rw [ih (n + 1) i (by simpa using h) (by omega)]
      rfl

theorem find_rev_pairTable_neg : ∀ (vs : List Fact) (n : Int) (i : Nat) (h : i < vs.length),
    0 < n → ((pairTable vs n).reverse.find? (fun p => p.2 = -(n + (i : Int)))) =
      some ('~' :: vs.get ⟨i, h⟩, -(n + (i : Int))) := by
  intro vs
  induction vs with
  | nil =>
    intro n i h
    simp at h
  | cons y ys ih =>
    intro n i h hn
    rw [pairTable_reverse_cons, List.find?_append]
    match i with
    | 0 =>
      simp only [Nat.cast_zero, add_zero]
      rw [find_rev_pairTable_none ys (n + 1) (-n) (by omega) (by omega)]
      rw [List.find?_cons_of_pos _ (by simp)]
      rfl
    | i + 1 =>
      have hcast : -(n + ((i + 1 : Nat) : Int)) = -((n + 1) + (i : Int)) := by push_cast; ring
      simp only [hcast]
      rw [ih (n + 1) i (by simpa using h) (by omega)]
      rfl

theorem num2var_pairTable_pos (vs : List Fact) (n : Int) (i : Nat) (h : i < vs.length)
    (hn : 0 < n) : num2var (pairTable vs n) (n + (i : Int)) = some (vs.get ⟨i, h⟩) := by
  rw [num2var, find_rev_pairTable_pos vs n i h hn]
  rfl

theorem num2var_pairTable_neg (vs : List Fact) (n : Int) (i : Nat) (h : i < vs.length)
    (hn : 0 < n) : num2var (pairTable vs n) (-(n + (i : Int))) = some ('~' :: vs.get ⟨i, h⟩) := by
  rw [num2var, find_rev_pairTable_neg vs n i h hn]
  rfl

/-- Lookup of a good literal in the paired table: its number, the number of
its negation, and the reverse-map entries for both. -/
theorem pairTable_literal_lookup {vs : List Fact} {l : Fact}
    (hnd : vs.Nodup) (hgood : ∀ x ∈ vs, goodVar x) (hl : goodLit l) (hv : varOf l ∈ vs) :
    ∃ k : Int, k ≠ 0 ∧ lookupLit (pairTable vs 1) l = some k ∧
      lookupLit (pairTable vs 1) (neg l) = some (-k) ∧
      num2var (pairTable vs 1) k = some l ∧
      num2var (pairTable vs 1) (-k) = some (neg l) := by
  obtain ⟨⟨i, hih⟩, hgi⟩ := List.mem_iff_get.1 hv
  rcases goodLit_shape hl with hshape | hshape
  · have hneg : neg l = '~' :: l := by
      apply neg_of_goodVar _ hl.1
      rw [hshape]
      exact varOf_goodVar hl
    refine ⟨1 + (i : Int), by omega, ?_, ?_, ?_, ?_⟩
    · rw [hshape, ← hgi]
      exact lookupLit_pairTable_pos vs 1 i hih hnd hgood
    · rw [hneg, hshape, ← hgi]
      exact lookupLit_pairTable_neg vs 1 i hih hnd hgood
    · rw [hshape, ← hgi]
      exact num2var_pairTable_pos vs 1 i hih (by omega)
    · rw [hneg, hshape, ← hgi]
      exact num2var_pairTable_neg vs 1 i hih (by omega)
  · have hneg : neg l = varOf l := by
      rw [hshape]
      exact neg_tilde _
    refine ⟨-(1 + (i : Int)), by omega, ?_, ?_, ?_, ?_⟩
    · rw [hshape, ← hgi]
      exact lookupLit_pairTable_neg vs 1 i hih hnd hgood
    · rw [hneg, ← hgi, neg_neg]
      exact lookupLit_pairTable_pos vs 1 i hih hnd hgood
    · rw [hshape, ← hgi]
      exact num2var_pairTable_neg vs 1 i hih (by omega)
    · rw [hneg, ← hgi, neg_neg]
      exact num2var_pairTable_pos vs 1 i hih (by omega)

/-- Encoding and decoding through a pointwise-invertible optional map. -/
theorem mapM_roundtrip {α β : Type} {f : α → Option β} {g : β → Option α} :
    ∀ l : List α, (∀ x ∈ l, ∃ y, f x = some y ∧ g y = some x) →
    ∃ l2, l.mapM f = some l2 ∧ l2.mapM g = some l := by
  intro l
  induction l with
  | nil =>
    intro _
    exact ⟨[], rfl, rfl⟩
  | cons x xs ih =>
    intro hall
    obtain ⟨y, hy, hyx⟩ := hall x (List.mem_cons_self x xs)
    obtain ⟨l2, h1, h2⟩ := ih (fun z hz => hall z (List.mem_cons_of_mem x hz))
    refine ⟨y :: l2, ?_, ?_⟩
    · rw [List.mapM_cons, hy, h1]
      rfl
    · rw [List.mapM_cons, hyx, h2]
      rfl

/-- C5 (amended): for every symbolic CNF whose literals are non-empty and
not doubly negated, make_translate assigns the distinct occurring
variables consecutive positive numbers from 1 in first-seen order over the
flattened traversal, a literal and its negation get exact opposite
numbers, the reverse map covers both polarities, and decoding every
numbered literal of the translated CNF reconstructs the original clauses
literal for literal.  On doubly negated literals the source aliases
distinct variables and the claim fails (see the counterexample). -/
theorem translator_properties (cnf : List (List Fact))
    (H : ∀ l ∈ cnf.flatten, l ≠ [] ∧ l.take 2 ≠ ['~', '~']) :
    ∃ d, make_translate cnf = some d ∧
      d = pairTable (firstSeen (cnf.flatten.map varOf)) 1 ∧
      (∀ (i : Nat) (h : i < (firstSeen (cnf.flatten.map varOf)).length),
        lookupLit d ((firstSeen (cnf.flatten.map varOf)).get ⟨i, h⟩) =
          some (1 + (i : Int)) ∧
        lookupLit d ('~' :: (firstSeen (cnf.flatten.map varOf)).get ⟨i, h⟩) =
          some (-(1 + (i : Int)))) ∧
      (∀ l ∈ cnf.flatten, ∃ k : Int, k ≠ 0 ∧ lookupLit d l = some k ∧
        lookupLit d (neg l) = some (-k) ∧ num2var d k = some l ∧
        num2var d (-k) = some (neg l)) ∧
      (∃ nc, translateNums d cnf = some nc ∧
        nc.mapM (fun ncl => ncl.mapM (num2var d)) = some cnf) := by
  have Hgood : ∀ l ∈ cnf.flatten, goodLit l := H
  have hnd : (firstSeen (cnf.flatten.map varOf)).Nodup :=
    firstSeenAux_nodup (cnf.flatten.map varOf) [] List.nodup_nil
  have hgood : ∀ x ∈ firstSeen (cnf.flatten.map varOf), goodVar x := by
    refine firstSeenAux_all (cnf.flatten.map varOf) [] (fun x hx => ?_) (fun x hx => ?_)
    · cases hx
    · obtain ⟨l, hl, rfl⟩ := List.mem_map.1 hx
      exact varOf_goodVar (Hgood l hl)
  have hvmem : ∀ l ∈ cnf.flatten, varOf l ∈ firstSeen (cnf.flatten.map varOf) := by
    intro l hl
    rw [firstSeen, mem_firstSeenAux]
    exact Or.inr (List.mem_map_of_mem varOf hl)
  refine ⟨pairTable (firstSeen (cnf.flatten.map varOf)) 1, make_translate_eq cnf Hgood,
    rfl, ?_, ?_, ?_⟩
  · intro i h
    exact ⟨lookupLit_pairTable_pos _ 1 i h hnd hgood,
      lookupLit_pairTable_neg _ 1 i h hnd hgood⟩
  · intro l hl
    exact pairTable_literal_lookup hnd hgood (Hgood l hl) (hvmem l hl)
  · apply mapM_roundtrip
    intro cl hcl
    apply mapM_roundtrip
    intro l hl
    have hfl : l ∈ cnf.flatten := List.mem_flatten.2 ⟨cl, hcl, hl⟩
    obtain ⟨k, -, hk1, -, hk3, -⟩ :=
      pairTable_literal_lookup hnd hgood (Hgood l hfl) (hvmem l hfl)
    exact ⟨k, hk1, hk3⟩

/-- C5 witness: the translator hypothesis holds at the concrete CNF
[(A, ~B)] and the theorem applies there, giving the paired dictionary. -/
theorem translator_properties_witness :
    make_translate [[['A'], ['~', 'B']]] =
      some (pairTable
        (firstSeen (([[['A'], ['~', 'B']]] : List (List Fact)).flatten.map varOf)) 1) := by
  obtain ⟨d, hd, hdeq, -, -, -⟩ := translator_properties [[['A'], ['~', 'B']]] (by decide)
  rw [hdeq] at hd
  exact hd

/-- C5 counterexample: on the symbolic CNF [(A, ~~A)], the literal A is
numbered 1 but its negation ~A is numbered 2 (the binding ~A is
overwritten when the doubly negated literal ~~A is numbered as a fresh
variable), so a literal and its negation do not receive exact opposite
numbers on every CNF. -/
theorem translator_opposite_fails :
    (make_translate [[['A'], ['~', '~', 'A']]]).bind (fun d => lookupLit d ['A']) =
      some 1 ∧
    (make_translate [[['A'], ['~', '~', 'A']]]).bind (fun d => lookupLit d (neg ['A'])) =
      some 2 ∧
    (2 : Int) ≠ -(1 : Int) := by
  refine ⟨by decide, by decide, by decide⟩

/-! ### Solve façade -/

/-- Embedding of translate (uniquify left False): build the dictionary from
the CNF, number every literal of every clause through it, and return the
numbered CNF together with the dictionary carrying the reverse map. -/
def translate (cnf : List (List Fact)) : Option (List (List Int) × List (Fact × Int)) :=
  (make_translate cnf).bind (fun d => (translateNums d cnf).map (fun nc => (nc, d)))

/-- Outcomes of solve_one: a first model, the distinguished unsatisfiable
signal (StopIteration of next on an exhausted generator), or a
translation/decoding fault (IndexError/KeyError), kept distinct. -/
inductive SolveOutcome where
  | ok (m : List Fact)
  | unsat
  | fault
  deriving DecidableEq

/-- Decoding of one backend model, as in itersolve: keep the numbers that
are positive unless include_neg is set, and map each kept number back
through the reverse dictionary. -/
def decodeModel (d : List (Fact × Int)) (includeNeg : Bool) (sol : List Int) :
    Option (List Fact) :=
  (sol.filter (fun n => includeNeg || 0 < n)).mapM (num2var d)

/-- Embedding of itersolve over an abstract backend oracle (pycosat is
external to this repository, consumed through the numeric-CNF contract):
translate once, then decode every model the backend enumerates. -/
def itersolve (backend : List (List Int) → List (List Int)) (cnf : List (List Fact))
    (includeNeg : Bool) : Option (List (List Fact)) :=
  (translate cnf).bind (fun p => (backend p.1).mapM (decodeModel p.2 includeNeg))

/-- Embedding of solve_one = next(itersolve(...)): translate, take the
first backend model and decode it; an empty enumeration is the
unsatisfiable outcome. -/
def solve_one (backend : List (List Int) → List (List Int)) (cnf : List (List Fact))
    (includeNeg : Bool) : SolveOutcome :=
  match translate cnf with
  | none => .fault
  | some (nc, d) =>
    match backend nc with
    | [] => .unsat
    | sol :: _ =>
      match decodeModel d includeNeg sol with
      | none => .fault
      | some m => .ok m

/-- C9: solve_one returns the first decoded model of the symbolic CNF
(each backend model decoded by dropping non-positive numbers unless
include_neg is set and mapping the rest back through the reverse map), and
an empty backend enumeration yields the distinguished unsatisfiable
outcome, distinct from any translation or backend fault. -/
theorem solve_one_first_or_unsat (backend : List (List Int) → List (List Int))
    (cnf : List (List Fact)) (includeNeg : Bool) :
    (∀ nc d, translate cnf = some (nc, d) →
      (backend nc = [] → solve_one backend cnf includeNeg = .unsat) ∧
      (∀ sol rest m, backend nc = sol :: rest →
        decodeModel d includeNeg sol = some m →
        solve_one backend cnf includeNeg = .ok m)) ∧
    (∀ ms, itersolve backend cnf includeNeg = some ms →
      solve_one backend cnf includeNeg =
        (match ms with | [] => SolveOutcome.unsat | m :: _ => SolveOutcome.ok m)) ∧
    (SolveOutcome.unsat ≠ SolveOutcome.fault ∧
      ∀ m, SolveOutcome.unsat ≠ SolveOutcome.ok m) := by
  refine ⟨?_, ?_, by simp, by simp⟩
  · intro nc d htr
    constructor
    · intro hempty
      simp [solve_one, htr, hempty]
    · intro sol rest m hcons hdec
      simp [solve_one, htr, hcons, hdec]
  · intro ms hms
    rw [itersolve] at hms
    match htr : translate cnf with
    | none => rw [htr] at hms; cases hms
    | some (nc, d) =>
      rw [htr] at hms
      rw [Option.some_bind] at hms
      match hb : backend nc with
      | [] =>
        rw [hb] at hms
        simp only [List.mapM_nil, Option.pure_def, Option.some.injEq] at hms
        simp [solve_one, htr, hb, ← hms]
      | sol :: rest =>
        rw [hb] at hms
        rw [List.mapM_cons] at hms
        match hdec : decodeModel d includeNeg sol with
        | none => rw [hdec] at hms; simp at hms
        | some m =>
          rw [hdec] at hms
          match hrest : rest.mapM (decodeModel d includeNeg) with
          | none => rw [hrest] at hms; simp at hms
          | some ms2 =>
            rw [hrest] at hms
            simp at hms
            subst hms
            simp [solve_one, htr, hb, hdec]

/-- C9 witness: a two-variable stub backend enumeration; solve_one decodes
its first model and an empty enumeration surfaces as unsatisfiable. -/
theorem solve_one_witness :
    translate [[['A']]] = some ([[1]], [(['A'], 1), (['~', 'A'], -1)]) ∧
    solve_one (fun _ => [[1]]) [[['A']]] false = SolveOutcome.ok [['A']] ∧
    solve_one (fun _ => []) [[['A']]] false = SolveOutcome.unsat := by
  refine ⟨by decide, ?_, ?_⟩
  · have h := (solve_one_first_or_unsat (fun _ => [[1]]) [[['A']]] false).1
      [[1]] [(['A'], 1), (['~', 'A'], -1)] (by decide)
    exact h.2 [1] [] [['A']] rfl (by decide)
  · have h := (solve_one_first_or_unsat (fun _ => []) [[['A']]] false).1
      [[1]] [(['A'], 1), (['~', 'A'], -1)] (by decide)
    exact h.1 rfl

/-! ### Extension variables and the Tseytin converter (from_dnf) -/

/-- Embedding of ext_var: the fact str(index) + three underscores; the
process-wide counter is threaded explicitly as the index. -/
def extVarName (i : Nat) : Fact := Nat.toDigits 10 i ++ ['_', '_', '_']

/-- Reference decimal rendering, most significant digit first; used to
reason about Nat.toDigits. -/
def decChars (n : Nat) : List Char :=
  if _h : n < 10 then [Nat.digitChar n]
  else decChars (n / 10) ++ [Nat.digitChar (n % 10)]
decreasing_by exact Nat.div_lt_self (by omega) (by omega)

/-- Numeric value of a digit string (inverse of the decimal rendering). -/
def ofDecimal (l : List Char) : Nat := l.foldl (fun acc c => acc * 10 + (c.toNat - 48)) 0

theorem digitChar_toNat {d : Nat} (h : d < 10) : (Nat.digitChar d).toNat = 48 + d := by
  interval_cases d <;> rfl

theorem ofDecimal_decChars (n : Nat) : ofDecimal (decChars n) = n := by
  induction n using Nat.strong_induction_on with
  | _ n ih =>
    rw [decChars]
    by_cases h : n < 10
    · rw [dif_pos h]
      simp [ofDecimal, digitChar_toNat h]
    · rw [dif_neg h]
      have ih1 := ih (n / 10) (Nat.div_lt_self (by omega) (by omega))
      simp only [ofDecimal] at ih1 ⊢
      rw [List.foldl_append, ih1, List.foldl_cons, List.foldl_nil,
        digitChar_toNat (Nat.mod_lt n (by omega))]
      omega

theorem decChars_injective : Function.Injective decChars := by
  intro a b h
  have h2 := congrArg ofDecimal h
  rwa [ofDecimal_decChars, ofDecimal_decChars] at h2

theorem toDigitsCore_eq_decChars : ∀ (fuel n : Nat) (ds : List Char), n < fuel →
    Nat.toDigitsCore 10 fuel n ds = decChars n ++ ds := by
  intro fuel
  induction fuel with
  | zero =>
    intro n ds h
    omega
  | succ fuel ih =>
    intro n ds h
    show Nat.toDigitsCore 10 (fuel + 1) n ds = decChars n ++ ds
    rw [Nat.toDigitsCore]
    by_cases h0 : n / 10 = 0
    · have hn10 : n < 10 := by omega
      simp only [h0, if_true]
      rw [decChars, dif_pos hn10, Nat.mod_eq_of_lt hn10]
      rfl
    · have hn10 : ¬ n < 10 := by omega
      simp only [h0, if_false]
      rw [ih (n / 10) (Nat.digitChar (n % 10) :: ds) (by omega)]
      conv_rhs => rw [decChars]
      rw [dif_neg hn10]
      simp

theorem toDigits_eq_decChars (n : Nat) : Nat.toDigits 10 n = decChars n := by
  rw [Nat.toDigits, toDigitsCore_eq_decChars (n + 1) n [] (by omega), List.append_nil]

theorem extVarName_injective : Function.Injective extVarName := by
  intro a b h
  rw [extVarName, extVarName, toDigits_eq_decChars, toDigits_eq_decChars] at h
  exact decChars_injective (List.append_cancel_right h)

theorem decChars_toNat_lt (n : Nat) : ∀ c ∈ decChars n, c.toNat < 58 := by
  induction n using Nat.strong_induction_on with
  | _ n ih =>
    intro c hc
    rw [decChars] at hc
    by_cases h : n < 10
    · rw [dif_pos h] at hc
      rw [List.mem_singleton.1 hc, digitChar_toNat h]
      omega
    · rw [dif_neg h] at hc
      rcases List.mem_append.1 hc with hc | hc
      · exact ih (n / 10) (Nat.div_lt_self (by omega) (by omega)) c hc
      · rw [List.mem_singleton.1 hc, digitChar_toNat (Nat.mod_lt n (by omega))]
        omega

theorem decChars_ne_nil (n : Nat) : decChars n ≠ [] := by
  rw [decChars]
  by_cases h : n < 10
  · rw [dif_pos h]
    simp
  · rw [dif_neg h]
    simp [decChars_ne_nil (n / 10)]
decreasing_by exact Nat.div_lt_self (by omega) (by omega)

theorem extVarName_head (i : Nat) : ∃ c rest, extVarName i = c :: rest ∧ c ≠ '~' := by
  rw [extVarName, toDigits_eq_decChars]
  match hd : decChars i with
  | [] => exact absurd hd (decChars_ne_nil i)
  | c :: rest =>
    refine ⟨c, rest ++ ['_', '_', '_'], by simp, ?_⟩
    have := decChars_toNat_lt i c (by rw [hd]; exact List.mem_cons_self c rest)
    intro hcontra
    rw [hcontra] at this
    simp at this

theorem evalLit_extVarName (v : Fact → Bool) (i : Nat) :
    evalLit v (extVarName i) = v (extVarName i) := by
  obtain ⟨c, rest, hcr, hc⟩ := extVarName_head i
  rw [hcr, evalLit, if_neg hc]

theorem evalLit_tilde (v : Fact → Bool) (f : Fact) :
    evalLit v ('~' :: f) = ! evalLit v f := by
  rw [evalLit]
  simp

theorem neg_extVarName (i : Nat) : neg (extVarName i) = '~' :: extVarName i := by
  obtain ⟨c, rest, hcr, hc⟩ := extVarName_head i
  rw [hcr, neg, if_neg hc]

theorem isExtVar_extVarName (i : Nat) : isExtVar (extVarName i) = true := by
  rw [extVarName, isExtVar]
  simp

/-- One Tseytin group block, in emission order: the clause (negated E, L)
for every literal L of the group, then the combined clause of all the
negated literals followed by E, exactly as the source loop builds them. -/
def groupBlock (e : Fact) (g : List Fact) : List (List Fact) :=
  g.map (fun l => [neg e, l]) ++ [g.map neg ++ [e]]

/-- The loop of from_dnf: the clause list and the extension-variable list
accumulate per group, the counter advances once per minted variable, and
the final clause ORs all minted extension variables. -/
def fromDnfLoop : List (List Fact) → Nat → List (List Fact) → List Fact → List (List Fact)
  | [], _, cnf, exts => cnf ++ [exts]
  | g :: gs, i, cnf, exts =>
      fromDnfLoop gs (i + 1) (cnf ++ groupBlock (extVarName i) g) (exts ++ [extVarName i])

/-- Embedding of from_dnf at a given value of the process-wide counter. -/
def from_dnf (start : Nat) (groups : List (List Fact)) : List (List Fact) :=
  fromDnfLoop groups start [] []

/-- Closed form of the emitted blocks, group by group. -/
def blocks : Nat → List (List Fact) → List (List Fact)
  | _, [] => []
  | i, g :: gs => groupBlock (extVarName i) g ++ blocks (i + 1) gs

/-- Closed form of the minted extension variables, k of them from index i. -/
def extList : Nat → Nat → List Fact
  | _, 0 => []
  | i, k + 1 => extVarName i :: extList (i + 1) k

theorem fromDnfLoop_eq : ∀ (gs : List (List Fact)) (i : Nat) (cnf : List (List Fact))
    (exts : List Fact),
    fromDnfLoop gs i cnf exts = cnf ++ blocks i gs ++ [exts ++ extList i gs.length] := by
  intro gs
  induction gs with
  | nil =>
    intro i cnf exts
    simp [fromDnfLoop, blocks, extList]
  | cons g gs ih =>
    intro i cnf exts
    rw [fromDnfLoop, ih, List.length_cons]
    show _ = cnf ++ blocks i (g :: gs) ++ _
    rw [blocks, extList]
    simp

theorem from_dnf_eq (start : Nat) (groups : List (List Fact)) :
    from_dnf start groups = blocks start groups ++ [extList start groups.length] := by
  rw [from_dnf, fromDnfLoop_eq]
  simp

theorem mem_extList : ∀ (k i : Nat) (x : Fact),
    x ∈ extList i k ↔ ∃ j, j < k ∧ x = extVarName (i + j) := by
  intro k
  induction k with
  | zero => simp [extList]
  | succ k ih =>
    intro i x
    rw [extList, List.mem_cons, ih]
    constructor
    · rintro (rfl | ⟨j, hj, rfl⟩)
      · exact ⟨0, by omega, by rw [Nat.add_zero]⟩
      · exact ⟨j + 1, by omega, by rw [show i + (j + 1) = i + 1 + j by omega]⟩
    · rintro ⟨j, hj, rfl⟩
      match j with
      | 0 => exact Or.inl (by rw [Nat.add_zero])
      | j + 1 => exact Or.inr ⟨j, by omega, by rw [show i + (j + 1) = i + 1 + j by omega]⟩

theorem extList_length : ∀ (k i : Nat), (extList i k).length = k := by
  intro k
  induction k with
  | zero => intro i; rfl
  | succ k ih => intro i; rw [extList, List.length_cons, ih]

theorem extList_nodup : ∀ (k i : Nat), (extList i k).Nodup := by
  intro k
  induction k with
  | zero => intro i; exact List.nodup_nil
  | succ k ih =>
    intro i
    rw [extList, List.nodup_cons]
    refine ⟨?_, ih (i + 1)⟩
    intro hcontra
    obtain ⟨j, hj, hje⟩ := (mem_extList k (i + 1) (extVarName i)).1 hcontra
    have := extVarName_injective hje
    omega

theorem blocks_length : ∀ (gs : List (List Fact)) (i : Nat),
    (blocks i gs).length = (gs.map (fun g => g.length + 1)).sum := by
  intro gs
  induction gs with
  | nil => intro i; rfl
  | cons g gs ih =>
    intro i
    rw [blocks, List.length_append, ih, List.map_cons, List.sum_cons, groupBlock,
      List.length_append, List.length_map]
    simp

theorem blocks_append : ∀ (gs1 gs2 : List (List Fact)) (i : Nat),
    blocks i (gs1 ++ gs2) = blocks i gs1 ++ blocks (i + gs1.length) gs2 := by
  intro gs1
  induction gs1 with
  | nil => intro gs2 i; simp [blocks]
  | cons g gs ih =>
    intro gs2 i
    show blocks i (g :: (gs ++ gs2)) = _
    rw [blocks, ih, blocks, List.length_cons]
    rw [show i + (gs.length + 1) = i + 1 + gs.length by omega]
    simp

/-- C3: from_dnf mints one extension variable per group, with consecutive
counter indices (hence pairwise distinct names, each carrying the reserved
suffix); the output is, in order, the per-group blocks (one clause
(negated E, L) per literal, then the combined clause of the negated
literals plus E) followed by one final clause of all minted extension
variables; the clause count is the sum of (group size + 1) plus one, and
on three 3-literal groups the output is exactly the 13-clause doctest CNF
with 3 extension variables. -/
theorem from_dnf_structure :
    (∀ (start : Nat) (groups : List (List Fact)),
      from_dnf start groups = blocks start groups ++ [extList start groups.length]) ∧
    (∀ (start k : Nat), (extList start k).length = k ∧ (extList start k).Nodup ∧
      ∀ e ∈ extList start k, isExtVar e = true) ∧
    (∀ (start : Nat) (groups : List (List Fact)),
      (from_dnf start groups).length = (groups.map (fun g => g.length + 1)).sum + 1) ∧
    ((from_dnf 0 [[['A'], ['B'], ['C']], [['D'], ['E'], ['F']], [['G'], ['H'], ['I']]]).length
        = 13 ∧
      extList 0 3 = [['0', '_', '_', '_'], ['1', '_', '_', '_'], ['2', '_', '_', '_']] ∧
      from_dnf 0 [[['A'], ['B'], ['C']], [['D'], ['E'], ['F']], [['G'], ['H'], ['I']]] =
        [[['~', '0', '_', '_', '_'], ['A']], [['~', '0', '_', '_', '_'], ['B']],
         [['~', '0', '_', '_', '_'], ['C']],
         [['~', 'A'], ['~', 'B'], ['~', 'C'], ['0', '_', '_', '_']],
         [['~', '1', '_', '_', '_'], ['D']], [['~', '1', '_', '_', '_'], ['E']],
         [['~', '1', '_', '_', '_'], ['F']],
         [['~', 'D'], ['~', 'E'], ['~', 'F'], ['1', '_', '_', '_']],
         [['~', '2', '_', '_', '_'], ['G']], [['~', '2', '_', '_', '_'], ['H']],
         [['~', '2', '_', '_', '_'], ['I']],
         [['~', 'G'], ['~', 'H'], ['~', 'I'], ['2', '_', '_', '_']],
         [['0', '_', '_', '_'], ['1', '_', '_', '_'], ['2', '_', '_', '_']]]) := by
  refine ⟨from_dnf_eq, ?_, ?_, by decide, by decide, by decide⟩
  · intro start k
    refine ⟨extList_length k start, extList_nodup k start, ?_⟩
    intro e he
    obtain ⟨j, hj, rfl⟩ := (mem_extList k start e).1 he
    exact isExtVar_extVarName (start + j)
  · intro start groups
    rw [from_dnf_eq, List.length_append, blocks_length]
    rfl

/-- C3 witness: the structure theorem applied at a concrete single group,
discharging the membership hypothesis of the extension-tag component at
the concrete minted variable. -/
theorem from_dnf_structure_witness :
    from_dnf 0 [[['A']]] = blocks 0 [[['A']]] ++ [extList 0 [[['A']]].length] ∧
    isExtVar ['0', '_', '_', '_'] = true :=
  ⟨from_dnf_structure.1 0 [[['A']]],
   (from_dnf_structure.2.1 0 1).2.2 ['0', '_', '_', '_'] (by decide)⟩

/-- C10: a zero-literal group still mints its extension variable E: the
group contributes no per-literal clauses, its combined clause degenerates
to the unit clause (E,), and E still appears among the minted variables in
the final clause. -/
theorem from_dnf_empty_group (start : Nat) (gs1 gs2 : List (List Fact)) :
    from_dnf start (gs1 ++ [] :: gs2) =
      blocks start gs1 ++ [[extVarName (start + gs1.length)]]
        ++ blocks (start + gs1.length + 1) gs2
        ++ [extList start (gs1 ++ [] :: gs2).length] ∧
    groupBlock (extVarName (start + gs1.length)) [] = [[extVarName (start + gs1.length)]] ∧
    extVarName (start + gs1.length) ∈ extList start (gs1 ++ [] :: gs2).length := by
  refine ⟨?_, rfl, ?_⟩
  · rw [from_dnf_eq, blocks_append, blocks]
    show _ ++ (groupBlock (extVarName (start + gs1.length)) [] ++ _) ++ _ = _
    rw [show groupBlock (extVarName (start + gs1.length)) [] =
      [[extVarName (start + gs1.length)]] from rfl]
    simp
  · rw [mem_extList]
    refine ⟨gs1.length, ?_, rfl⟩
    rw [List.length_append, List.length_cons]
    omega

/-! ### The exact converter (from_dnf_with_de_morgan) -/

/-- The distribution step of from_dnf_with_de_morgan: combine every clause
of the running collection with every literal of the group, skipping pairs
where the clause already holds the literal's negation (identities); set
union collapses duplicate literals, and duplicate literals of the group
collapse through the singleton-keyed dict nl. -/
def distribute (s : Finset (Finset Fact)) (g : List Fact) : Finset (Finset Fact) :=
  g.toFinset.biUnion (fun l => (s.filter (fun c => neg l ∉ c)).image (insert l))

/-- One run of the converter loop.  After distributing a group, any clause
of minimum size may be chosen as the anchor sc (the source computes min
over an unordered set and is marked not deterministic), and every strict
superset of the anchor is discarded.  When the distributed collection is
empty, min raises ValueError and the run is stuck. -/
inductive Steps : Finset (Finset Fact) → List (List Fact) → Finset (Finset Fact) → Prop where
  | nil (s : Finset (Finset Fact)) : Steps s [] s
  | cons (s : Finset (Finset Fact)) (g : List Fact) (gs : List (List Fact))
      (sc : Finset Fact) (out : Finset (Finset Fact))
      (hmem : sc ∈ distribute s g)
      (hmin : ∀ c ∈ distribute s g, sc.card ≤ c.card)
      (hnext : Steps ((distribute s g).filter (fun c => ¬ sc ⊂ c)) gs out) :
      Steps s (g :: gs) out

/-- A set clause holds when one of its literals is true. -/
def evalClauseF (v : Fact → Bool) (c : Finset Fact) : Prop := ∃ l ∈ c, evalLit v l = true

/-- A collection of set clauses holds when all of them hold. -/
def evalCnfF (v : Fact → Bool) (s : Finset (Finset Fact)) : Prop := ∀ c ∈ s, evalClauseF v c

theorem Steps_nil_inv {s out : Finset (Finset Fact)} (h : Steps s [] out) : out = s := by
  cases h with
  | nil => rfl

theorem Steps_cons_inv {s out : Finset (Finset Fact)} {g : List Fact} {gs : List (List Fact)}
    (h : Steps s (g :: gs) out) :
    ∃ sc, sc ∈ distribute s g ∧ (∀ c ∈ distribute s g, sc.card ≤ c.card) ∧
      Steps ((distribute s g).filter (fun c => ¬ sc ⊂ c)) gs out := by
  cases h with
  | cons _ _ _ sc _ hmem hmin hnext => exact ⟨sc, hmem, hmin, hnext⟩

theorem mem_distribute {s : Finset (Finset Fact)} {g : List Fact} {c : Finset Fact} :
    c ∈ distribute s g ↔ ∃ l ∈ g, ∃ c0 ∈ s, neg l ∉ c0 ∧ c = insert l c0 := by
  rw [distribute]
  constructor
  · intro hc
    obtain ⟨l, hl, hc⟩ := Finset.mem_biUnion.1 hc
    obtain ⟨c0, hc0, rfl⟩ := Finset.mem_image.1 hc
    obtain ⟨hc0s, hneg⟩ := Finset.mem_filter.1 hc0
    exact ⟨l, List.mem_toFinset.1 hl, c0, hc0s, hneg, rfl⟩
  · rintro ⟨l, hl, c0, hc0, hneg, rfl⟩
    exact Finset.mem_biUnion.2 ⟨l, List.mem_toFinset.2 hl,
      Finset.mem_image.2 ⟨c0, Finset.mem_filter.2 ⟨hc0, hneg⟩, rfl⟩⟩

/-- Distribution is logically exact: the distributed collection holds
exactly when the old collection held or the whole group is true. -/
theorem evalCnfF_distribute (v : Fact → Bool) (s : Finset (Finset Fact)) (g : List Fact) :
    evalCnfF v (distribute s g) ↔ (evalCnfF v s ∨ evalGroup v g = true) := by
  constructor
  · intro h
    by_cases hs : evalCnfF v s
    · exact Or.inl hs
    · right
      rw [evalCnfF] at hs
      push_neg at hs
      obtain ⟨c0, hc0, hc0f⟩ := hs
      rw [evalGroup, List.all_eq_true]
      by_contra hg
      push_neg at hg
      obtain ⟨l0, hl0, hl0f⟩ := hg
      have hneg : neg l0 ∉ c0 := by
        intro hmem
        exact hc0f ⟨neg l0, hmem, by rw [evalLit_neg]; simp at hl0f ⊢; exact hl0f⟩
      obtain ⟨l, hl, hev⟩ := h (insert l0 c0) (mem_distribute.2 ⟨l0, hl0, c0, hc0, hneg, rfl⟩)
      rcases Finset.mem_insert.1 hl with rfl | hl
      · simp at hl0f
        rw [hl0f] at hev
        cases hev
      · exact hc0f ⟨l, hl, hev⟩
  · intro h c hc
    obtain ⟨l, hl, c0, hc0, -, rfl⟩ := mem_distribute.1 hc
    rcases h with h | h
    · obtain ⟨l1, hl1, hev⟩ := h c0 hc0
      exact ⟨l1, Finset.mem_insert_of_mem hl1, hev⟩
    · rw [evalGroup, List.all_eq_true] at h
      exact ⟨l, Finset.mem_insert_self l c0, h l hl⟩

/-- Discarding the strict supersets of a clause that stays in the
collection preserves the conjunction. -/
theorem evalCnfF_filter_ssubset (v : Fact → Bool) (s : Finset (Finset Fact))
    (sc : Finset Fact) (hsc : sc ∈ s) :
    evalCnfF v (s.filter (fun c => ¬ sc ⊂ c)) ↔ evalCnfF v s := by
  constructor
  · intro h c hc
    by_cases hss : sc ⊂ c
    · obtain ⟨l, hl, hev⟩ := h sc (Finset.mem_filter.2 ⟨hsc, ssubset_irrefl sc⟩)
      exact ⟨l, hss.subset hl, hev⟩
    · exact h c (Finset.mem_filter.2 ⟨hc, hss⟩)
  · intro h c hc
    exact h c (Finset.mem_filter.1 hc).1

theorem Steps_eval {s : Finset (Finset Fact)} {gs : List (List Fact)}
    {out : Finset (Finset Fact)} (h : Steps s gs out) (v : Fact → Bool) :
    evalCnfF v out ↔ (evalCnfF v s ∨ evalDnf v gs = true) := by
  induction h with
  | nil s => simp [evalDnf]
  | cons s g gs sc out hmem hmin hnext ih =>
    rw [ih, evalCnfF_filter_ssubset v _ sc hmem, evalCnfF_distribute]
    simp only [evalDnf, List.any_cons, Bool.or_eq_true]
    tauto

theorem evalCnfF_init (v : Fact → Bool) : ¬ evalCnfF v ({∅} : Finset (Finset Fact)) := by
  intro h
  obtain ⟨l, hl, -⟩ := h ∅ (Finset.mem_singleton_self ∅)
  exact absurd hl (Finset.not_mem_empty l)

/-- Any run of the exact converter is logically equivalent to the input
DNF. -/
theorem steps_equiv {groups : List (List Fact)} {out : Finset (Finset Fact)}
    (h : Steps {∅} groups out) (v : Fact → Bool) :
    evalCnfF v out ↔ evalDnf v groups = true := by
  rw [Steps_eval h v]
  have := evalCnfF_init v
  tauto

/-- Literals of any run's output come from the input groups (with the
start state's literals allowed as well). -/
theorem Steps_lits {s : Finset (Finset Fact)} {gs : List (List Fact)}
    {out : Finset (Finset Fact)} (h : Steps s gs out) :
    ∀ c ∈ out, ∀ l ∈ c, (∃ c0 ∈ s, l ∈ c0) ∨ ∃ g ∈ gs, l ∈ g := by
  induction h with
  | nil s =>
    intro c hc l hl
    exact Or.inl ⟨c, hc, hl⟩
  | cons s g gs sc out hmem hmin hnext ih =>
    intro c hc l hl
    rcases ih c hc l hl with ⟨c0, hc0, hlc0⟩ | ⟨g1, hg1, hlg1⟩
    · have hc0d : c0 ∈ distribute s g := (Finset.mem_filter.1 hc0).1
      obtain ⟨l1, hl1, c1, hc1, -, rfl⟩ := mem_distribute.1 hc0d
      rcases Finset.mem_insert.1 hlc0 with rfl | hlc1
      · exact Or.inr ⟨g, List.mem_cons_self g gs, hl1⟩
      · exact Or.inl ⟨c1, hc1, hlc1⟩
    · exact Or.inr ⟨g1, List.mem_cons_of_mem g hg1, hlg1⟩

/-- A filter against strict supersets removes nothing from a collection of
equal-size clauses. -/
theorem filter_ssubset_of_const_card {s : Finset (Finset Fact)} {k : Nat} {sc : Finset Fact}
    (hcard : ∀ c ∈ s, c.card = k) (hsc : sc ∈ s) :
    s.filter (fun c => ¬ sc ⊂ c) = s := by
  rw [Finset.filter_eq_self]
  intro c hc hcontra
  have hlt := Finset.card_lt_card hcontra
  rw [hcard c hc, hcard sc hsc] at hlt
  omega

/-- C1: every successful run of from_dnf_with_de_morgan returns a CNF that
is logically equivalent to the input disjunction-of-conjunctions and whose
literals all occur in the input groups; on the three 3-literal groups
(A,B,C),(D,E,F),(G,H,I) every run returns exactly 27 clauses of width 3. -/
theorem from_dnf_with_de_morgan_correct :
    (∀ (groups : List (List Fact)) (out : Finset (Finset Fact)),
      Steps {∅} groups out →
      (∀ v, evalCnfF v out ↔ evalDnf v groups = true) ∧
      (∀ c ∈ out, ∀ l ∈ c, ∃ g ∈ groups, l ∈ g)) ∧
    (∀ out : Finset (Finset Fact),
      Steps {∅} [[['A'], ['B'], ['C']], [['D'], ['E'], ['F']], [['G'], ['H'], ['I']]] out →
      out.card = 27 ∧ ∀ c ∈ out, c.card = 3) := by
  constructor
  · intro groups out h
    refine ⟨steps_equiv h, ?_⟩
    intro c hc l hl
    rcases Steps_lits h c hc l hl with ⟨c0, hc0mem, hlc0⟩ | hg
    · rw [Finset.mem_singleton.1 hc0mem] at hlc0
      exact absurd hlc0 (Finset.not_mem_empty l)
    · exact hg
  · intro out h
    obtain ⟨sc1, hmem1, -, h1⟩ := Steps_cons_inv h
    rw [filter_ssubset_of_const_card (k := 1) (by decide) hmem1] at h1
    obtain ⟨sc2, hmem2, -, h2⟩ := Steps_cons_inv h1
    rw [filter_ssubset_of_const_card (k := 2) (by decide) hmem2] at h2
    obtain ⟨sc3, hmem3, -, h3⟩ := Steps_cons_inv h2
    rw [filter_ssubset_of_const_card (k := 3) (by decide) hmem3] at h3
    rw [Steps_nil_inv h3]
    exact ⟨by decide, by decide⟩

/-- C1 witness: a concrete run on the single group (A,) produces the
single unit clause {A}, and the equivalence holds there under the all-true
assignment. -/
theorem from_dnf_with_de_morgan_correct_witness :
    evalCnfF (fun _ => true) {({['A']} : Finset Fact)} ↔
      evalDnf (fun _ => true) [[['A']]] = true := by
  have hrun : Steps {∅} [[['A']]] {({['A']} : Finset Fact)} := by
    refine Steps.cons _ _ _ {['A']} _ (by decide) (by decide) ?_
    have hfix : ((distribute {∅} [['A']]).filter (fun c => ¬ {['A']} ⊂ c)) =
        {({['A']} : Finset Fact)} := by decide
    rw [hfix]
    exact Steps.nil _
  exact (from_dnf_with_de_morgan_correct.1 [[['A']]] _ hrun).1 (fun _ => true)

/-- A concrete run on the groups (A,B),(A,B,C): both distribution anchors
have length 1; anchoring the second elimination at the clause containing A
leaves the collection with B together with its strict superset (B,C). -/
theorem dm_run_anchor_a : Steps {∅} [[['A'], ['B']], [['A'], ['B'], ['C']]]
    ({{['A']}, {['B']}, {['B'], ['C']}} : Finset (Finset Fact)) := by
  refine Steps.cons _ _ _ {['A']} _ (by decide) (by decide) ?_
  have h1 : ((distribute {∅} [['A'], ['B']]).filter (fun c => ¬ {['A']} ⊂ c)) =
      ({{['A']}, {['B']}} : Finset (Finset Fact)) := by decide
  rw [h1]
  refine Steps.cons _ _ _ {['A']} _ (by decide) (by decide) ?_
  have h2 : ((distribute ({{['A']}, {['B']}} : Finset (Finset Fact))
      [['A'], ['B'], ['C']]).filter (fun c => ¬ {['A']} ⊂ c)) =
      ({{['A']}, {['B']}, {['B'], ['C']}} : Finset (Finset Fact)) := by decide
  rw [h2]
  exact Steps.nil _

/-- The same input with the other minimal anchor in the second
elimination: the outcome differs. -/
theorem dm_run_anchor_b : Steps {∅} [[['A'], ['B']], [['A'], ['B'], ['C']]]
    ({{['A']}, {['B']}, {['A'], ['C']}} : Finset (Finset Fact)) := by
  refine Steps.cons _ _ _ {['A']} _ (by decide) (by decide) ?_
  have h1 : ((distribute {∅} [['A'], ['B']]).filter (fun c => ¬ {['A']} ⊂ c)) =
      ({{['A']}, {['B']}} : Finset (Finset Fact)) := by decide
  rw [h1]
  refine Steps.cons _ _ _ {['B']} _ (by decide) (by decide) ?_
  have h2 : ((distribute ({{['A']}, {['B']}} : Finset (Finset Fact))
      [['A'], ['B'], ['C']]).filter (fun c => ¬ {['B']} ⊂ c)) =
      ({{['A']}, {['B']}, {['A'], ['C']}} : Finset (Finset Fact)) := by decide
  rw [h2]
  exact Steps.nil _

/-- C4 counterexample: on groups (A,B),(A,B,C) the converter can finish in
two different clause sets depending on which minimal clause anchors the
subsumption elimination, and the first outcome simultaneously holds the
clause (B) and its strict superset (B,C) — so neither part of the claim
holds. -/
theorem de_morgan_prune_counterexample :
    Steps {∅} [[['A'], ['B']], [['A'], ['B'], ['C']]]
      ({{['A']}, {['B']}, {['B'], ['C']}} : Finset (Finset Fact)) ∧
    Steps {∅} [[['A'], ['B']], [['A'], ['B'], ['C']]]
      ({{['A']}, {['B']}, {['A'], ['C']}} : Finset (Finset Fact)) ∧
    ({{['A']}, {['B']}, {['B'], ['C']}} : Finset (Finset Fact)) ≠
      ({{['A']}, {['B']}, {['A'], ['C']}} : Finset (Finset Fact)) ∧
    ({['B']} : Finset Fact) ∈ ({{['A']}, {['B']}, {['B'], ['C']}} : Finset (Finset Fact)) ∧
    ({['B'], ['C']} : Finset Fact) ∈
      ({{['A']}, {['B']}, {['B'], ['C']}} : Finset (Finset Fact)) ∧
    ({['B']} : Finset Fact) ⊂ ({['B'], ['C']} : Finset Fact) :=
  ⟨dm_run_anchor_a, dm_run_anchor_b, by decide, by decide, by decide, by decide⟩

/-- C4 (amended): after each fold the collection keeps the chosen minimal
anchor and holds no strict superset of that anchor (and the anchor stays
of minimal size); but strict-superset pairs among other clauses may
remain, and the final clause set can depend on the choice of anchor —
all outcomes are nevertheless logically equivalent (each is equivalent to
the input DNF). -/
theorem de_morgan_prune_anchor_properties :
    (∀ (s : Finset (Finset Fact)) (g : List Fact) (sc : Finset Fact),
      sc ∈ distribute s g → (∀ c ∈ distribute s g, sc.card ≤ c.card) →
      sc ∈ (distribute s g).filter (fun c => ¬ sc ⊂ c) ∧
      (∀ c ∈ (distribute s g).filter (fun c => ¬ sc ⊂ c), ¬ sc ⊂ c) ∧
      (∀ c ∈ (distribute s g).filter (fun c => ¬ sc ⊂ c), sc.card ≤ c.card)) ∧
    (∀ (groups : List (List Fact)) (out1 out2 : Finset (Finset Fact)),
      Steps {∅} groups out1 → Steps {∅} groups out2 →
      ∀ v, evalCnfF v out1 ↔ evalCnfF v out2) := by
  constructor
  · intro s g sc hmem hmin
    refine ⟨Finset.mem_filter.2 ⟨hmem, ssubset_irrefl sc⟩, ?_, ?_⟩
    · intro c hc
      exact (Finset.mem_filter.1 hc).2
    · intro c hc
      exact hmin c (Finset.mem_filter.1 hc).1
  · intro groups out1 out2 h1 h2 v
    rw [steps_equiv h1 v, steps_equiv h2 v]

/-- C4 witness: the anchor stays in the pruned collection on the concrete
first fold, and the two divergent concrete outcomes are logically
equivalent under the all-true assignment. -/
theorem de_morgan_prune_anchor_properties_witness :
    ({['A']} : Finset Fact) ∈ (distribute {∅} [['A'], ['B']]).filter
      (fun c => ¬ ({['A']} : Finset Fact) ⊂ c) ∧
    (evalCnfF (fun _ => true) ({{['A']}, {['B']}, {['B'], ['C']}} : Finset (Finset Fact)) ↔
      evalCnfF (fun _ => true) ({{['A']}, {['B']}, {['A'], ['C']}} : Finset (Finset Fact))) :=
  ⟨(de_morgan_prune_anchor_properties.1 {∅} [['A'], ['B']] {['A']}
      (by decide) (by decide)).1,
   de_morgan_prune_anchor_properties.2 [[['A'], ['B']], [['A'], ['B'], ['C']]] _ _
     dm_run_anchor_a dm_run_anchor_b (fun _ => true)⟩

/-! ### Equisatisfiability of the Tseytin conversion (C2) -/

/-- The atomic name a literal's truth value depends on: all leading tildes
stripped. -/
def coreName : Fact → Fact
  | [] => []
  | c :: rest => if c = '~' then coreName rest else c :: rest

theorem evalLit_core_congr (w v : Fact → Bool) : ∀ l : Fact,
    w (coreName l) = v (coreName l) → evalLit w l = evalLit v l := by
  intro l
  induction l with
  | nil =>
    intro h
    simpa [evalLit, coreName] using h
  | cons c rest ih =>
    intro h
    by_cases hc : c = '~'
    · subst hc
      rw [coreName, if_pos rfl] at h
      simp [evalLit, ih h]
    · rw [coreName, if_neg hc] at h
      simp [evalLit, hc, h]

theorem isExtVar_tilde {f : Fact} (h : isExtVar f = true) : isExtVar ('~' :: f) = true := by
  rw [isExtVar] at h ⊢
  simp only [decide_eq_true_eq] at h ⊢
  have h3 : 3 ≤ f.reverse.length := by
    have hlen := congrArg List.length h
    rw [List.length_take] at hlen
    simp at hlen
    rw [List.length_reverse]
    omega
  rw [List.reverse_cons, List.take_append_of_le_length h3]
  exact h

theorem isExtVar_coreName : ∀ {l : Fact}, isExtVar l = false → isExtVar (coreName l) = false := by
  intro l
  induction l with
  | nil =>
    intro h
    exact h
  | cons c rest ih =>
    intro h
    by_cases hc : c = '~'
    · subst hc
      rw [coreName, if_pos rfl]
      cases hrest : isExtVar rest
      · exact ih hrest
      · simp [isExtVar_tilde hrest] at h
    · rw [coreName, if_neg hc]
      exact h

/-- The model extension of the Tseytin argument: each minted extension
variable is read as the truth value of its group; everything else is
looked up in the base assignment. -/
def extendV (v : Fact → Bool) : Nat → List (List Fact) → Fact → Bool
  | _, [], f => v f
  | i, g :: gs, f => if f = extVarName i then evalGroup v g else extendV v (i + 1) gs f

theorem extendV_nonext (v : Fact → Bool) : ∀ (gs : List (List Fact)) (i : Nat) (f : Fact),
    isExtVar f = false → extendV v i gs f = v f := by
  intro gs
  induction gs with
  | nil =>
    intro i f _
    rfl
  | cons g gs ih =>
    intro i f hf
    rw [extendV]
    by_cases hfe : f = extVarName i
    · rw [hfe, isExtVar_extVarName] at hf
      cases hf
    · rw [if_neg hfe]
      exact ih (i + 1) f hf

theorem extendV_ext (v : Fact → Bool) : ∀ (gs : List (List Fact)) (i j : Nat)
    (h : j < gs.length),
    extendV v i gs (extVarName (i + j)) = evalGroup v (gs.get ⟨j, h⟩) := by
  intro gs
  induction gs with
  | nil =>
    intro i j h
    simp at h
  | cons g gs ih =>
    intro i j h
    match j with
    | 0 =>
      rw [Nat.add_zero, extendV, if_pos rfl]
      rfl
    | j + 1 =>
      rw [extendV, if_neg ?_]
      · have := ih (i + 1) j (by simpa using h)
        rw [show i + 1 + j = i + (j + 1) by omega] at this
        exact this
      · intro hcontra
        have := extVarName_injective hcontra
        omega

/-- Agreement of two assignments on every non-extension fact: the models
coincide after extension variables are stripped. -/
def agreeNonExt (w v : Fact → Bool) : Prop :=
  ∀ f : Fact, isExtVar f = false → w f = v f

/-- If the extension variable of a group block is true under a model of the
blocks, that whole group is true. -/
theorem blocks_group_true : ∀ (gs : List (List Fact)) (i : Nat) (v : Fact → Bool),
    evalCnf v (blocks i gs) = true →
    ∀ (j : Nat) (h : j < gs.length), v (extVarName (i + j)) = true →
    evalGroup v (gs.get ⟨j, h⟩) = true := by
  intro gs
  induction gs with
  | nil =>
    intro i v _ j h
    simp at h
  | cons g gs ih =>
    intro i v hB j h hv
    rw [blocks, evalCnf, List.all_append, Bool.and_eq_true] at hB
    obtain ⟨hg, hrest⟩ := hB
    match j with
    | 0 =>
      show evalGroup v g = true
      rw [Nat.add_zero] at hv
      rw [groupBlock, List.all_append, Bool.and_eq_true] at hg
      obtain ⟨hlits, -⟩ := hg
      rw [List.all_eq_true] at hlits
      rw [evalGroup, List.all_eq_true]
      intro l hl
      have hcl := hlits [neg (extVarName i), l] (List.mem_map_of_mem _ hl)
      rw [evalClause, List.any_cons, List.any_cons, List.any_nil, Bool.or_false,
        Bool.or_eq_true] at hcl
      rcases hcl with hcl | hcl
      · rw [neg_extVarName, evalLit_tilde, evalLit_extVarName, hv] at hcl
        simp at hcl
      · exact hcl
    | j + 1 =>
      have := ih (i + 1) v hrest j (by simpa using h)
      rw [show i + 1 + j = i + (j + 1) by omega] at this
      exact this hv

/-- Soundness of the Tseytin output: any model of from_dnf makes the input
DNF true. -/
theorem from_dnf_sound (start : Nat) (groups : List (List Fact)) (v : Fact → Bool)
    (hT : evalCnf v (from_dnf start groups) = true) : evalDnf v groups = true := by
  rw [from_dnf_eq, evalCnf, List.all_append, Bool.and_eq_true] at hT
  obtain ⟨hB, hE⟩ := hT
  have hEc : evalClause v (extList start groups.length) = true := by
    simpa [evalCnf] using hE
  rw [evalClause, List.any_eq_true] at hEc
  obtain ⟨e, he, hev⟩ := hEc
  obtain ⟨j, hj, rfl⟩ := (mem_extList groups.length start e).1 he
  rw [evalLit_extVarName] at hev
  have hg := blocks_group_true groups start v hB j hj hev
  rw [evalDnf, List.any_eq_true]
  exact ⟨groups.get ⟨j, hj⟩, List.get_mem groups j hj, hg⟩

/-- Completeness of the group blocks under the extended model: when the
extension variables are read as their groups' truth values and the group
literals keep their base values, every block clause holds. -/
theorem blocks_sat : ∀ (gs : List (List Fact)) (i : Nat) (w v : Fact → Bool),
    (∀ (j : Nat) (h : j < gs.length), w (extVarName (i + j)) = evalGroup v (gs.get ⟨j, h⟩)) →
    (∀ g ∈ gs, ∀ l ∈ g, evalLit w l = evalLit v l) →
    evalCnf w (blocks i gs) = true := by
  intro gs
  induction gs with
  | nil =>
    intro i w v _ _
    rfl
  | cons g gs ih =>
    intro i w v hext hlit
    have h0 : w (extVarName i) = evalGroup v g := by
      have := hext 0 (by simp)
      rwa [Nat.add_zero] at this
    have hlitg : ∀ l ∈ g, evalLit w l = evalLit v l :=
      fun l hl => hlit g (List.mem_cons_self g gs) l hl
    rw [blocks, evalCnf, List.all_append, Bool.and_eq_true]
    constructor
    · rw [groupBlock, List.all_append, Bool.and_eq_true]
      constructor
      · rw [List.all_eq_true]
        intro x hx
        obtain ⟨l, hl, rfl⟩ := List.mem_map.1 hx
        rw [evalClause, List.any_cons, List.any_cons, List.any_nil, Bool.or_false,
          Bool.or_eq_true]
        by_cases hw : w (extVarName i) = true
        · right
          have hgt : evalGroup v g = true := by rw [← h0, hw]
          rw [evalGroup, List.all_eq_true] at hgt
          rw [hlitg l hl]
          exact hgt l hl
        · left
          rw [Bool.not_eq_true] at hw
          rw [neg_extVarName, evalLit_tilde, evalLit_extVarName, hw]
          rfl
      · simp only [List.all_cons, List.all_nil, Bool.and_true]
        rw [evalClause, List.any_append, Bool.or_eq_true]
        by_cases hg : evalGroup v g = true
        · right
          rw [List.any_cons, List.any_nil, Bool.or_false, evalLit_extVarName, h0, hg]
        · left
          rw [evalGroup, List.all_eq_true] at hg
          push_neg at hg
          obtain ⟨l, hl, hlf⟩ := hg
          rw [List.any_eq_true]
          refine ⟨neg l, List.mem_map_of_mem neg hl, ?_⟩
          rw [evalLit_neg, hlitg l hl]
          simp only [Bool.not_eq_true] at hlf
          simp [hlf]
    · apply ih (i + 1) w v
      · intro j h
        have := hext (j + 1) (by simpa using h)
        rwa [show i + (j + 1) = i + 1 + j by omega] at this
      · intro g1 hg1 l hl
        exact hlit g1 (List.mem_cons_of_mem g hg1) l hl

/-- Completeness of the Tseytin output: when the input DNF is true under v
and no input literal carries the extension suffix, the extended model
satisfies every clause of from_dnf. -/
theorem from_dnf_complete (start : Nat) (groups : List (List Fact)) (v : Fact → Bool)
    (H : ∀ g ∈ groups, ∀ l ∈ g, isExtVar l = false)
    (hD : evalDnf v groups = true) :
    evalCnf (extendV v start groups) (from_dnf start groups) = true := by
  have hlit : ∀ g ∈ groups, ∀ l ∈ g, evalLit (extendV v start groups) l = evalLit v l := by
    intro g hg l hl
    exact evalLit_core_congr _ v l
      (extendV_nonext v groups start (coreName l) (isExtVar_coreName (H g hg l hl)))
  rw [from_dnf_eq, evalCnf, List.all_append, Bool.and_eq_true]
  constructor
  · exact blocks_sat groups start (extendV v start groups) v
      (fun j h => extendV_ext v groups start j h) hlit
  · rw [evalDnf, List.any_eq_true] at hD
    obtain ⟨g, hg, hgt⟩ := hD
    obtain ⟨⟨j, hj⟩, rfl⟩ := List.mem_iff_get.1 hg
    simp only [evalCnf, List.all_cons, List.all_nil, Bool.and_true]
    rw [evalClause, List.any_eq_true]
    refine ⟨extVarName (start + j), (mem_extList groups.length start _).2 ⟨j, hj, rfl⟩, ?_⟩
    rw [evalLit_extVarName, extendV_ext v groups start j hj]
    exact hgt

/-- C2: over input groups whose literals do not carry the reserved
extension suffix (the client naming contract), the Tseytin CNF from_dnf is
satisfiable exactly when any run of the exact converter (equivalently the
input DNF) is satisfiable; every model of the Tseytin CNF is a model of
the exact CNF; and the two conversions have exactly the same satisfying
models once restricted to non-extension facts. -/
theorem tseytin_equisatisfiable (start : Nat) (groups : List (List Fact))
    (out : Finset (Finset Fact))
    (H : ∀ g ∈ groups, ∀ l ∈ g, isExtVar l = false)
    (hrun : Steps {∅} groups out) :
    (∀ v, evalCnf v (from_dnf start groups) = true → evalCnfF v out) ∧
    ((∃ v, evalCnf v (from_dnf start groups) = true) ↔ (∃ v, evalCnfF v out)) ∧
    ((∃ v, evalCnf v (from_dnf start groups) = true) ↔ (∃ v, evalDnf v groups = true)) ∧
    (∀ v, (∃ w, evalCnf w (from_dnf start groups) = true ∧ agreeNonExt w v) ↔
      (∃ w, evalCnfF w out ∧ agreeNonExt w v)) := by
  have hsound : ∀ v, evalCnf v (from_dnf start groups) = true → evalDnf v groups = true :=
    fun v => from_dnf_sound start groups v
  have hcomplete : ∀ v, evalDnf v groups = true →
      evalCnf (extendV v start groups) (from_dnf start groups) = true :=
    fun v hD => from_dnf_complete start groups v H hD
  refine ⟨?_, ?_, ?_, ?_⟩
  · intro v hv
    exact (steps_equiv hrun v).2 (hsound v hv)
  · constructor
    · rintro ⟨v, hv⟩
      exact ⟨v, (steps_equiv hrun v).2 (hsound v hv)⟩
    · rintro ⟨v, hv⟩
      exact ⟨extendV v start groups, hcomplete v ((steps_equiv hrun v).1 hv)⟩
  · constructor
    · rintro ⟨v, hv⟩
      exact ⟨v, hsound v hv⟩
    · rintro ⟨v, hv⟩
      exact ⟨extendV v start groups, hcomplete v hv⟩
  · intro v
    constructor
    · rintro ⟨w, hw, hagree⟩
      exact ⟨w, (steps_equiv hrun w).2 (hsound w hw), hagree⟩
    · rintro ⟨w, hw, hagree⟩
      refine ⟨extendV w start groups, hcomplete w ((steps_equiv hrun w).1 hw), ?_⟩
      intro f hf
      rw [extendV_nonext w groups start f hf]
      exact hagree f hf

/-- C2 witness: on the single group (A,), any all-true assignment models
the Tseytin CNF, so by the theorem it also models the exact conversion
result {{A}}. -/
theorem tseytin_equisatisfiable_witness :
    evalCnfF (fun _ => true) {({['A']} : Finset Fact)} := by
  have hrun : Steps {∅} [[['A']]] {({['A']} : Finset Fact)} := by
    refine Steps.cons _ _ _ {['A']} _ (by decide) (by decide) ?_
    have hfix : ((distribute {∅} [['A']]).filter (fun c => ¬ {['A']} ⊂ c)) =
        {({['A']} : Finset Fact)} := by decide
    rw [hfix]
    exact Steps.nil _
  exact (tseytin_equisatisfiable 0 [[['A']]] _ (by decide) hrun).1
    (fun _ => true) (by decide)

end SatUtils
